import Mathlib

/-!
Verification of the Stack++ interpreter (`src/main.rs`) against its
natural-language specification.

Shallow embedding conventions:
* Rust `f64` is modelled by `QF`, an exact normalized fraction type.
  Every numeric literal and every arithmetic step appearing in the claims
  below stays inside a range where `f64` arithmetic is exact, so the
  rational model agrees with the float one on everything the claims
  touch.  Division by zero yields `0` in the model where `f64` would
  yield `inf`/`NaN`; no claim exercises that case.  (`QF` rather than
  Mathlib's `Rat` because `Rat`'s `Nat.gcd`-based normalization does not
  reduce inside the kernel, and the concrete claims are settled by kernel
  evaluation.)
* Rust `String` is modelled by Lean `String`; the tokenizer works on
  `List Char` (Rust's `chars()` iteration) and rebuilds `String`s at the
  boundary.  Rust byte indices into strings are modelled by character
  indices: the code only ever removes a character it has just located
  with `find`/`rfind`, so the two index notions select the same
  occurrence.
* `HashMap<String, Type>` is modelled by the function
  `String → Option Ty` with pointwise update, which is exactly the
  observable behaviour of `insert`/`get`.
* `print!` appends to an `output` field of the machine state; `readline`
  consumes from an `inputs` list.
* The Rust evaluator recurses without bound (a loop whose condition never
  flips diverges), so the Lean evaluator takes a fuel argument and
  returns `none` on exhaustion; `some st` means the Rust evaluation
  terminates with machine state `st`.
-/

/-- Exact-rational model of Rust's `f64`: a fraction in canonical form
(`den > 0` and `num`/`den` coprime; every operation re-normalizes, so
rationally equal values are structurally equal). -/
structure QF where
  num : Int
  den : Nat
deriving DecidableEq, Repr

/-- Fuel-bounded Euclid's algorithm; since the first fraction argument
strictly decreases each step, fuel `m + 1` always suffices for
`gcdF fuel m n`. -/
def gcdF : Nat → Nat → Nat → Nat
  | 0, _, n => n
  | f + 1, m, n => if m = 0 then n else gcdF f (n % m) m

/-- Greatest common divisor (kernel-computable). -/
def natGcd (m n : Nat) : Nat := gcdF (m + 1) m n

/-- The canonical fraction `n / d` (the `Rat::normalize` analogue; `d = 0`
collapses to `0`, a case no claim exercises). -/
def QF.mk' (n d : Int) : QF :=
  if d = 0 then ⟨0, 1⟩
  else
    let n' := if d < 0 then -n else n
    let dn := d.natAbs
    let g := natGcd n'.natAbs dn
    ⟨Int.tdiv n' (g : Int), dn / g⟩

/-- Addition of fractions. -/
def QF.add (a b : QF) : QF :=
  QF.mk' (a.num * (b.den : Int) + b.num * (a.den : Int)) ((a.den : Int) * (b.den : Int))

/-- Subtraction of fractions. -/
def QF.sub (a b : QF) : QF :=
  QF.mk' (a.num * (b.den : Int) - b.num * (a.den : Int)) ((a.den : Int) * (b.den : Int))

/-- Multiplication of fractions. -/
def QF.mul (a b : QF) : QF := QF.mk' (a.num * b.num) ((a.den : Int) * (b.den : Int))

/-- Exact division of fractions (`0` on a zero divisor, where `f64` gives
`inf`/`NaN`; no claim exercises that case). -/
def QF.div (a b : QF) : QF := QF.mk' (a.num * (b.den : Int)) ((a.den : Int) * b.num)

/-- Strict order on fractions, as a boolean. -/
def QF.blt (a b : QF) : Bool := decide (a.num * (b.den : Int) < b.num * (a.den : Int))

/-- Floor of a fraction. -/
def QF.floor (a : QF) : Int := Int.fdiv a.num (a.den : Int)

/-- Truncation toward zero, as Rust's `f64::trunc`. -/
def QF.trunc (a : QF) : Int := Int.tdiv a.num (a.den : Int)

/-- Whether the fraction is negative. -/
def QF.isNeg (a : QF) : Bool := decide (a.num < 0)

/-- Absolute value. -/
def QF.abs (a : QF) : QF := ⟨(a.num.natAbs : Int), a.den⟩

/-- The fraction `n / 1`. -/
def QF.ofInt (n : Int) : QF := ⟨n, 1⟩

instance (n : Nat) : OfNat QF n := ⟨⟨(n : Int), 1⟩⟩

/-- Natural power of a fraction. -/
def QF.pow (a : QF) : Nat → QF
  | 0 => ⟨1, 1⟩
  | k + 1 => (QF.pow a k).mul a

/-- Model of Rust's `%` on `f64` (truncated remainder):
`a - b * (a / b).trunc`. -/
def fmodQ (a b : QF) : QF := a.sub (b.mul (QF.ofInt (QF.trunc (a.div b))))

/-- Model of Rust's `f64::powf`, exact for the non-negative integral
exponents representable here and `0` elsewhere; no claim depends on its
numeric value. -/
def powfQ (a b : QF) : QF :=
  if b.den = 1 ∧ 0 ≤ b.num then a.pow b.num.toNat else ⟨0, 1⟩

/-- The error kind of `enum Error` in `main.rs`: its only variant is
`StackEmpty`. -/
inductive Err where
  | StackEmpty
deriving DecidableEq, Repr

/-- The opcode set of `enum Instruction` in `main.rs`. -/
inductive Instruction where
  | Add | Sub | Mul | Div | Mod | Pow
  | Concat | Print | Input
  | Equal | LessThan | GreaterThan
  | Eval | When | IfElse | While | Until
  | Let | Pop
deriving DecidableEq, Repr

/-- The value model `enum Type` in `main.rs` (named `Ty` here because
`Type` is reserved in Lean).  `Number` carries the rational model of
`f64`; `Variable` is the `$name` variable reference. -/
inductive Ty where
  | Number (n : QF)
  | String (s : String)
  | Bool (b : Bool)
  | Variable (s : String)
  | Instruction (i : Instruction)
  | Block (b : List Ty)
  | Error (e : Err)

/-- Alias for `String` usable inside the `Ty` namespace, where the bare
name resolves to the constructor `Ty.String`. -/
abbrev Str := String

/-- Alias for `Bool` usable inside the `Ty` namespace. -/
abbrev Boole := Bool

/-- Decimal digits of `n`, most significant first (`Nat::to_string`
model). -/
def natDecimal (n : Nat) : String := Nat.repr n

/-- Fractional decimal digits of a fraction `r` with `0 ≤ r < 1`:
repeated multiply-by-ten, emitting the integer part, until the remainder
is zero or the fuel runs out.  Every `f64` value has a finite decimal
expansion, so for the fractions that model floats a fuel ≥ 1100 (the
longest `f64` expansion) is never exhausted. -/
def fracDecimal : Nat → QF → String
  | 0, _ => ""
  | k + 1, r =>
    if r.num = 0 then ""
    else
      let r10 := r.mul (QF.ofInt 10)
      let d := r10.floor
      natDecimal d.toNat ++ fracDecimal k (r10.sub (QF.ofInt d))

/-- Model of Rust's `f64::to_string` on the fractions that model floats:
sign, integer part in decimal, and — only when the value is not integral —
a `.` followed by the (finite) fractional expansion.  This matches Rust's
shortest-roundtrip printing on every value the claims evaluate (integral
values print with no decimal point: `0.0` prints as `0`). -/
def numToString (q : QF) : String :=
  let a := q.abs
  let ip := natDecimal a.floor.toNat
  let frac :=
    if a.den = 1 then "" else "." ++ fracDecimal 1100 (a.sub (QF.ofInt a.floor))
  (if q.isNeg then "-" else "") ++ ip ++ frac

/-- `Type::get_number` (`main.rs:66-71`): the payload for `Number`, else
`0.0`. -/
def Ty.get_number : Ty → QF
  | .Number n => n
  | _ => 0

/-- `Type::get_string` (`main.rs:73-79`): the text for `String` and
`Variable`, the decimal text for `Number`, else the empty string. -/
def Ty.get_string : Ty → Str
  | .String s => s
  | .Variable s => s
  | .Number n => numToString n
  | _ => ""

/-- `Type::get_bool` (`main.rs:81-86`): the payload for `Bool`, else
`false`. -/
def Ty.get_bool : Ty → Boole
  | .Bool b => b
  | _ => false

/-- `Type::get_block` (`main.rs:88-93`): the inner sequence for `Block`,
else the one-element sequence holding the value itself. -/
def Ty.get_block : Ty → List Ty
  | .Block b => b
  | other => [other]

/-- The machine `struct Core` of `main.rs`: the operand stack (list head =
top of the Rust `Vec`'s end), the global memory, plus the modelled I/O
channels (`output` collects `print!` text, `inputs` feeds `readline`). -/
structure Core where
  stack : List Ty
  memory : String → Option Ty
  output : String
  inputs : List String

/-- `Core::pop` (`main.rs:355-361`): the top of the stack when there is
one, the `Error(StackEmpty)` value (with the state unchanged) otherwise. -/
def Core.pop (st : Core) : Ty × Core :=
  match st.stack with
  | v :: rest => (v, { st with stack := rest })
  | [] => (Ty.Error Err.StackEmpty, st)

/-- Push a value (Rust `self.stack.push(v)`). -/
def Core.push (st : Core) (v : Ty) : Core :=
  { st with stack := v :: st.stack }

/-- The machine state `main` starts with: empty stack, empty memory, no
modelled output yet and no pending input. -/
def emptyCore : Core := ⟨[], fun _ => none, "", []⟩

/-- `HashMap::insert`: pointwise update of the memory. -/
def minsert (m : String → Option Ty) (k : String) (v : Ty) :
    String → Option Ty :=
  fun x => if x = k then some v else m x

/-- The `while { eval cond; pop bool } { eval body }` loop of the `While`
arm (`main.rs:317-322`), fuel-bounded: `ev` evaluates a sequence the way
the surrounding `eval` call does. -/
def whileGo (ev : Core → List Ty → Option Core) :
    Nat → Core → List Ty → List Ty → Option Core
  | 0, _, _, _ => none
  | k + 1, st, condition, code =>
    match ev st condition with
    | none => none
    | some st1 =>
      let p := st1.pop
      if (p.1).get_bool then
        match ev p.2 code with
        | none => none
        | some st3 => whileGo ev k st3 condition code
      else some p.2

/-- The `while { eval cond; !pop bool } { eval body }` loop of the `Until`
arm (`main.rs:327-332`), fuel-bounded. -/
def untilGo (ev : Core → List Ty → Option Core) :
    Nat → Core → List Ty → List Ty → Option Core
  | 0, _, _, _ => none
  | k + 1, st, condition, code =>
    match ev st condition with
    | none => none
    | some st1 =>
      let p := st1.pop
      if !(p.1).get_bool then
        match ev p.2 code with
        | none => none
        | some st3 => untilGo ev k st3 condition code
      else some p.2

/-- `Core::eval` (`main.rs:232-353`), fuel-bounded.  Each list item is
dispatched exactly as in the Rust `match`: instructions pop operands and
push results, a `Variable` pushes its memory binding (or itself when
unbound), every other value is pushed as-is.  Nested blocks are evaluated
by recursion at one fuel less; `none` means the fuel ran out. -/
def evalT : Nat → Core → List Ty → Option Core
  | 0, _, _ => none
  | _ + 1, st, [] => some st
  | n + 1, st, order :: rest =>
    match order with
    | Ty.Instruction inst =>
      match inst with
      | .Add =>
        let b := st.pop
        let a := (b.2).pop
        evalT n ((a.2).push (.Number (QF.add ((a.1).get_number) ((b.1).get_number)))) rest
      | .Sub =>
        let b := st.pop
        let a := (b.2).pop
        evalT n ((a.2).push (.Number (QF.sub ((a.1).get_number) ((b.1).get_number)))) rest
      | .Mul =>
        let b := st.pop
        let a := (b.2).pop
        evalT n ((a.2).push (.Number (QF.mul ((a.1).get_number) ((b.1).get_number)))) rest
      | .Div =>
        let b := st.pop
        let a := (b.2).pop
        evalT n ((a.2).push (.Number (QF.div ((a.1).get_number) ((b.1).get_number)))) rest
      | .Mod =>
        let b := st.pop
        let a := (b.2).pop
        evalT n ((a.2).push (.Number (fmodQ ((a.1).get_number) ((b.1).get_number)))) rest
      | .Pow =>
        let b := st.pop
        let a := (b.2).pop
        evalT n ((a.2).push (.Number (powfQ ((a.1).get_number) ((b.1).get_number)))) rest
      | .Concat =>
        let b := st.pop
        let a := (b.2).pop
        evalT n ((a.2).push (.String ((a.1).get_string ++ (b.1).get_string))) rest
      | .Print =>
        let a := st.pop
        evalT n { a.2 with output := (a.2).output ++ (a.1).get_string } rest
      | .Input =>
        evalT n { st with stack := .String (st.inputs.headD "") :: st.stack,
                          inputs := st.inputs.tail } rest
      | .Equal =>
        let b := st.pop
        let a := (b.2).pop
        evalT n ((a.2).push (.Bool (decide ((a.1).get_string = (b.1).get_string)))) rest
      | .LessThan =>
        let b := st.pop
        let a := (b.2).pop
        evalT n ((a.2).push (.Bool (QF.blt ((a.1).get_number) ((b.1).get_number)))) rest
      | .GreaterThan =>
        let b := st.pop
        let a := (b.2).pop
        evalT n ((a.2).push (.Bool (QF.blt ((b.1).get_number) ((a.1).get_number)))) rest
      | .Eval =>
        let c := st.pop
        match evalT n c.2 ((c.1).get_block) with
        | none => none
        | some st2 => evalT n st2 rest
      | .When =>
        let c := st.pop
        let condition := (c.2).pop
        match (if (condition.1).get_bool then evalT n condition.2 ((c.1).get_block)
               else some condition.2) with
        | none => none
        | some st3 => evalT n st3 rest
      | .IfElse =>
        let cf := st.pop
        let ct := (cf.2).pop
        let condition := (ct.2).pop
        match evalT n condition.2
            (if (condition.1).get_bool then (ct.1).get_block else (cf.1).get_block) with
        | none => none
        | some st4 => evalT n st4 rest
      | .While =>
        let c := st.pop
        let condition := (c.2).pop
        match whileGo (evalT n) n condition.2 ((condition.1).get_block) ((c.1).get_block) with
        | none => none
        | some st3 => evalT n st3 rest
      | .Until =>
        let c := st.pop
        let condition := (c.2).pop
        match untilGo (evalT n) n condition.2 ((condition.1).get_block) ((c.1).get_block) with
        | none => none
        | some st3 => evalT n st3 rest
      | .Let =>
        let name := st.pop
        let value := (name.2).pop
        evalT n { value.2 with
                  memory := minsert (value.2).memory ((name.1).get_string) value.1 } rest
      | .Pop =>
        evalT n { st with stack := st.stack.tail } rest
    | Ty.Variable name =>
      match st.memory name with
      | some v => evalT n (st.push v) rest
      | none => evalT n (st.push (.Variable name)) rest
    | other => evalT n (st.push other) rest

/-- The mutable state of `tokenize_expr` (`main.rs:132-187`): the emitted
tokens, the token being accumulated, the brace-nesting counter
(`in_parentheses`) and the quoting flag (`in_quote`). -/
structure TokSt where
  tokens : List (List Char)
  current : List Char
  depth : Nat
  quote : Bool
deriving DecidableEq, Repr

/-- The five token-splitting whitespace characters of `main.rs:169`
(space, newline, tab, carriage return, full-width space). -/
def wsChars : List Char := [' ', '\n', '\t', '\r', '　']

/-- One character step of `tokenize_expr`'s `for c in input.chars()` loop,
arm for arm: `{` outside quotes deepens and is appended; `}` outside
quotes is appended and closes (emitting the token at depth 0) unless the
depth already is 0, in which case it is discarded; `"` toggles quoting at
depth 0 (emitting the quoted token on close) and is plain text inside
braces; whitespace splits only at depth 0 outside quotes; everything else
is appended. -/
def tokStep (st : TokSt) (c : Char) : TokSt :=
  if c = '{' ∧ st.quote = false then
    { st with depth := st.depth + 1, current := st.current ++ [c] }
  else if c = '}' ∧ st.quote = false then
    if st.depth ≠ 0 then
      if st.depth = 1 then
        { st with depth := 0, current := [],
                  tokens := st.tokens ++ [st.current ++ [c]] }
      else { st with depth := st.depth - 1, current := st.current ++ [c] }
    else st
  else if c = '"' then
    if st.depth = 0 then
      if st.quote then
        { st with quote := false, current := [],
                  tokens := st.tokens ++ [st.current ++ [c]] }
      else { st with quote := true, current := st.current ++ [c] }
    else { st with current := st.current ++ [c] }
  else if c ∈ wsChars then
    if st.depth ≠ 0 ∨ st.quote = true then { st with current := st.current ++ [c] }
    else if st.current ≠ [] then
      { st with current := [], tokens := st.tokens ++ [st.current] }
    else st
  else { st with current := st.current ++ [c] }

/-- The initial tokenizer state. -/
def tokInit : TokSt := ⟨[], [], 0, false⟩

/-- `tokenize_expr` (`main.rs:132-187`) on a character list: fold the
character step over the input, then flush the trailing token only when it
is nonempty and neither inside braces nor inside a quote. -/
def tokenizeChars (cs : List Char) : List (List Char) :=
  let st := cs.foldl tokStep tokInit
  if ¬(st.depth ≠ 0 ∨ st.quote = true ∨ st.current = []) then
    st.tokens ++ [st.current]
  else st.tokens

/-- `tokenize_expr` on a `String`. -/
def tokenizeExpr (s : String) : List (List Char) := tokenizeChars s.toList

/-- Rust `char::is_whitespace`, restricted to the whitespace characters
this interpreter can meet (`str::trim` model). -/
def isWsChar (c : Char) : Bool := c.isWhitespace || c = '　'

/-- Rust `str::trim` on a character list. -/
def trimChars (l : List Char) : List Char :=
  ((l.dropWhile isWsChar).reverse.dropWhile isWsChar).reverse

/-- Value of a decimal digit character. -/
def digitVal (c : Char) : Nat := c.toNat - 48

/-- Value of a string of decimal digits. -/
def digitsVal (cs : List Char) : Nat := cs.foldl (fun a c => a * 10 + digitVal c) 0

/-- Model of Rust's `str::parse::<f64>` restricted to the plain decimal
forms `[+|-] digits`, `[+|-] digits . digits`, `[+|-] digits .`,
`[+|-] . digits` (the forms a Stack++ program's number literals take; the
exotic `f64` spellings `inf`, `NaN` and exponent notation are not
modelled, and no claim uses them).  The resulting value is the exact
rational; for the literals in the claims the `f64` rounding is exact. -/
def parseNumber (cs : List Char) : Option QF :=
  let signed : QF × List Char :=
    match cs with
    | '-' :: t => (⟨-1, 1⟩, t)
    | '+' :: t => (⟨1, 1⟩, t)
    | _ => (⟨1, 1⟩, cs)
  let ip := signed.2.takeWhile Char.isDigit
  let rest := signed.2.dropWhile Char.isDigit
  match rest with
  | [] => if ip.isEmpty then none else some (signed.1.mul (QF.ofInt (digitsVal ip)))
  | '.' :: fp =>
    if fp.all Char.isDigit ∧ ¬(ip.isEmpty ∧ fp.isEmpty) then
      some (signed.1.mul ((QF.ofInt (digitsVal ip)).add
        ((QF.ofInt (digitsVal fp)).div ((QF.ofInt 10).pow fp.length))))
    else none
  | _ => none

/-- Index of the first occurrence of `c` (Rust `str::find`). -/
def firstIdx (c : Char) : List Char → Option Nat
  | [] => none
  | x :: xs => if x = c then some 0 else (firstIdx c xs).map (· + 1)

/-- Index of the last occurrence of `c` (Rust `str::rfind`). -/
def lastIdx (c : Char) (l : List Char) : Option Nat :=
  (firstIdx c l.reverse).map (fun j => l.length - 1 - j)

/-- Rust `String::remove(i)` as a total function (the parser only calls it
at an index it has just located with `find`/`rfind`, so the out-of-range
panic is unreachable; the model drops nothing there). -/
def removeAt (l : List Char) (i : Nat) : List Char := l.take i ++ l.drop (i + 1)

/-- The keyword table of `Core::parse` (`main.rs:205-225`). -/
def keywordInstr : String → Option Instruction
  | "add" => some .Add
  | "sub" => some .Sub
  | "mul" => some .Mul
  | "div" => some .Div
  | "mod" => some .Mod
  | "pow" => some .Pow
  | "concat" => some .Concat
  | "print" => some .Print
  | "input" => some .Input
  | "equal" => some .Equal
  | "less-than" => some .LessThan
  | "greater-than" => some .GreaterThan
  | "eval" => some .Eval
  | "when" => some .When
  | "if-else" => some .IfElse
  | "while" => some .While
  | "until" => some .Until
  | "let" => some .Let
  | "pop" => some .Pop
  | _ => none

/-- `Core::parse` (`main.rs:131-230`), fuel-bounded on the nesting depth
of blocks (the Rust recursion always terminates because the inner text of
a block token is shorter than its source; any fuel at least the nesting
depth gives the Rust result).  Each token is trimmed and classified in the
source's priority order: float literal, quoted string (first and last
quote removed via `find`/`rfind`), brace block (recursively parsed),
`$`-variable, keyword; a token matching nothing is dropped. -/
def parseF : Nat → String → List Ty
  | 0, _ => []
  | n + 1, source =>
    (tokenizeChars source.toList).flatMap (fun tok =>
      let t := trimChars tok
      match parseNumber t with
      | some q => [Ty.Number q]
      | none =>
        if t.head? = some '"' ∧ t.getLast? = some '"' then
          let t1 := removeAt t ((firstIdx '"' t).getD 0)
          [Ty.String (String.mk (removeAt t1 ((lastIdx '"' t1).getD 0)))]
        else if t.head? = some '{' ∧ t.getLast? = some '}' then
          let t1 := removeAt t ((firstIdx '{' t).getD 0)
          [Ty.Block (parseF n (String.mk (removeAt t1 ((lastIdx '}' t1).getD 0))))]
        else if t.head? = some '$' then
          [Ty.Variable (String.mk (removeAt t ((firstIdx '$' t).getD 0)))]
        else
          match keywordInstr (String.mk t) with
          | some i => [Ty.Instruction i]
          | none => [])

/-- The token-classification step of `Core::parse`, at block-nesting fuel
`n`: the body of the `for token in tokenize_expr(source)` loop. -/
def classifyF (n : Nat) (tok : List Char) : List Ty :=
  let t := trimChars tok
  match parseNumber t with
  | some q => [Ty.Number q]
  | none =>
    if t.head? = some '"' ∧ t.getLast? = some '"' then
      let t1 := removeAt t ((firstIdx '"' t).getD 0)
      [Ty.String (String.mk (removeAt t1 ((lastIdx '"' t1).getD 0)))]
    else if t.head? = some '{' ∧ t.getLast? = some '}' then
      let t1 := removeAt t ((firstIdx '{' t).getD 0)
      [Ty.Block (parseF n (String.mk (removeAt t1 ((lastIdx '}' t1).getD 0))))]
    else if t.head? = some '$' then
      [Ty.Variable (String.mk (removeAt t ((firstIdx '$' t).getD 0)))]
    else
      match keywordInstr (String.mk t) with
      | some i => [Ty.Instruction i]
      | none => []

/-- `parseF` at positive fuel is the token classification mapped over the
tokenizer's output. -/
theorem parseF_succ (n : Nat) (s : String) :
    parseF (n + 1) s = (tokenizeChars s.toList).flatMap (classifyF n) := rfl

/-- Ban of the `Instruction` variant from machine state: `v` is any value
except a (top-level) `Type::Instruction`. -/
def notInstr (v : Ty) : Prop := ∀ i, v ≠ Ty.Instruction i

/-- The machine-state invariant of C10: no `Instruction` value sits on
the stack or in the memory map. -/
def Core.ok (st : Core) : Prop :=
  (∀ v ∈ st.stack, notInstr v) ∧ (∀ k v, st.memory k = some v → notInstr v)

mutual

/-- No `Error` value occurs anywhere in the value, blocks included. -/
def errorFree : Ty → Bool
  | .Block b => errorFreeList b
  | .Error _ => false
  | _ => true

/-- No `Error` value occurs anywhere in the list, blocks included. -/
def errorFreeList : List Ty → Bool
  | [] => true
  | v :: r => errorFree v && errorFreeList r

end

/-- C4: every coercion accessor is total — each is a function defined on
all of `Ty` — and, variant by variant: `get_number` yields the payload
for `Number` and `0.0` otherwise; `get_string` yields the text for
`String` and `Variable`, the decimal text for `Number`, and the empty
string otherwise; `get_bool` yields the payload for `Bool` and `false`
otherwise; `get_block` yields the inner sequence for `Block` and
otherwise the one-element sequence holding the value unchanged. -/
theorem c4_coercions_total :
    ((∀ n, (Ty.Number n).get_number = n) ∧
     (∀ s, (Ty.String s).get_number = 0) ∧
     (∀ b, (Ty.Bool b).get_number = 0) ∧
     (∀ s, (Ty.Variable s).get_number = 0) ∧
     (∀ i, (Ty.Instruction i).get_number = 0) ∧
     (∀ l, (Ty.Block l).get_number = 0) ∧
     (∀ e, (Ty.Error e).get_number = 0)) ∧
    ((∀ s, (Ty.String s).get_string = s) ∧
     (∀ s, (Ty.Variable s).get_string = s) ∧
     (∀ n, (Ty.Number n).get_string = numToString n) ∧
     (∀ b, (Ty.Bool b).get_string = "") ∧
     (∀ i, (Ty.Instruction i).get_string = "") ∧
     (∀ l, (Ty.Block l).get_string = "") ∧
     (∀ e, (Ty.Error e).get_string = "")) ∧
    ((∀ b, (Ty.Bool b).get_bool = b) ∧
     (∀ n, (Ty.Number n).get_bool = false) ∧
     (∀ s, (Ty.String s).get_bool = false) ∧
     (∀ s, (Ty.Variable s).get_bool = false) ∧
     (∀ i, (Ty.Instruction i).get_bool = false) ∧
     (∀ l, (Ty.Block l).get_bool = false) ∧
     (∀ e, (Ty.Error e).get_bool = false)) ∧
    ((∀ l, (Ty.Block l).get_block = l) ∧
     (∀ n, (Ty.Number n).get_block = [Ty.Number n]) ∧
     (∀ s, (Ty.String s).get_block = [Ty.String s]) ∧
     (∀ b, (Ty.Bool b).get_block = [Ty.Bool b]) ∧
     (∀ s, (Ty.Variable s).get_block = [Ty.Variable s]) ∧
     (∀ i, (Ty.Instruction i).get_block = [Ty.Instruction i]) ∧
     (∀ e, (Ty.Error e).get_block = [Ty.Error e])) := by
  refine ⟨⟨?_, ?_, ?_, ?_, ?_, ?_, ?_⟩, ⟨?_, ?_, ?_, ?_, ?_, ?_, ?_⟩,
    ⟨?_, ?_, ?_, ?_, ?_, ?_, ?_⟩, ⟨?_, ?_, ?_, ?_, ?_, ?_, ?_⟩⟩ <;> intros <;> rfl

/-- C2 counterexample: the two-instruction program `add print` on the
empty stack prints `0` — the decimal text of the pushed `Number(0.0)` —
and not, as claimed, the empty string. -/
theorem c2_add_print_counterexample :
    (evalT 10 emptyCore [Ty.Instruction .Add, Ty.Instruction .Print]).map Core.output
      = some "0" ∧ ("0" : String) ≠ "" := ⟨rfl, by decide⟩

/-- C2 (amended): `add` on the empty stack does not abort — both pops
yield the `Error(StackEmpty)` value and `add` pushes `Number(0.0)` — and
`add print` from the empty stack prints `0` (the decimal text of the
zero-valued error coercion), without raising. -/
theorem c2_add_print_amended :
    emptyCore.pop.1 = Ty.Error Err.StackEmpty ∧
    (emptyCore.pop.2).pop.1 = Ty.Error Err.StackEmpty ∧
    (evalT 10 emptyCore [Ty.Instruction .Add]).map Core.stack = some [Ty.Number 0] ∧
    (evalT 10 emptyCore [Ty.Instruction .Add, Ty.Instruction .Print]).map Core.output
      = some "0" ∧
    (evalT 10 emptyCore [Ty.Instruction .Add, Ty.Instruction .Print]).map Core.stack
      = some [] :=
  ⟨rfl, rfl, rfl, rfl, rfl⟩

/-- C1 counterexample: evaluating `1 \x7b"hi" print\x7d when` prints
nothing (the boolean coercion of `Number(1.0)` is `false`), not `hi`. -/
theorem c1_when_counterexample :
    (evalT 50 emptyCore (parseF 10 "1 \x7b\"hi\" print\x7d when")).map Core.output
      = some "" ∧ ("" : String) ≠ "hi" := ⟨rfl, by decide⟩

/-- C1 (amended): `0 \x7b"hi" print\x7d when` prints nothing and
`1 \x7b"hi" print\x7d when` also prints nothing, because the boolean
coercion of a `Number` is `false`; in general `When` pops the block
first, then pops a value whose boolean coercion decides whether the block
runs, so with a `Bool(true)` under the block — as produced by
`1 1 equal` — the block runs and `hi` is printed exactly once. -/
theorem c1_when_amended :
    ((evalT 50 emptyCore (parseF 10 "0 \x7b\"hi\" print\x7d when")).map Core.output
       = some "") ∧
    ((evalT 50 emptyCore (parseF 10 "1 \x7b\"hi\" print\x7d when")).map Core.output
       = some "") ∧
    ((evalT 50 emptyCore (parseF 10 "1 1 equal \x7b\"hi\" print\x7d when")).map Core.output
       = some "hi") ∧
    (∀ (n : Nat) (st : Core) (rest : List Ty),
      evalT (n + 1) st (Ty.Instruction Instruction.When :: rest) =
        (let c := st.pop
         let condition := (c.2).pop
         match (if (condition.1).get_bool then evalT n condition.2 ((c.1).get_block)
                else some condition.2) with
         | none => none
         | some st3 => evalT n st3 rest)) :=
  ⟨rfl, rfl, rfl, fun _ _ _ => rfl⟩

/-- C8: the counter-driven while loop
`"i" 0 let \x7b$i 10 less-than\x7d \x7b$i 1 add "i" let\x7d while`
terminates (the evaluation returns a final state rather than running out
of an arbitrarily large fuel) and leaves the memory mapping `i` to
`Number(10.0)`. -/
theorem c8_counter_while_loop :
    (evalT 100 emptyCore (parseF 10
        "\"i\" 0 let \x7b$i 10 less-than\x7d \x7b$i 1 add \"i\" let\x7d while")).bind
      (fun st => st.memory "i") = some (Ty.Number 10) := rfl

/-- C9: a `}` met by the tokenizer at brace depth 0 outside quotes is
silently discarded: the character step leaves the tokenizer state — the
current token, the emitted tokens, depth and quote flag — unchanged, so
tokenizing any continuation behaves as if the `}` were absent and the
character can never appear in an emitted token. -/
theorem c9_stray_close_brace (st : TokSt) (rest : List Char)
    (hd : st.depth = 0) (hq : st.quote = false) :
    tokStep st '}' = st ∧
    List.foldl tokStep st ('}' :: rest) = List.foldl tokStep st rest := by
  have h1 : tokStep st '}' = st := by
    unfold tokStep
    rw [if_neg (fun h => absurd h.1 (by decide)), if_pos ⟨rfl, hq⟩, if_neg (by simp [hd])]
  exact ⟨h1, by rw [List.foldl_cons, h1]⟩

/-- C9 witness: the stray `}` step at the initial state, concretely. -/
theorem c9_stray_close_brace_witness :
    tokStep tokInit '}' = tokInit ∧
    List.foldl tokStep tokInit ('}' :: ['a']) = List.foldl tokStep tokInit ['a'] :=
  c9_stray_close_brace tokInit ['a'] rfl rfl

/-- `errorFreeList` distributes over append. -/
theorem errorFreeList_append (l1 l2 : List Ty) :
    errorFreeList (l1 ++ l2) = (errorFreeList l1 && errorFreeList l2) := by
  induction l1 with
  | nil => rfl
  | cons v r ih => simp [errorFreeList, ih, Bool.and_assoc]

/-- Token classification never produces an `Error` value (given the same
for block-recursive parses). -/
theorem errorFreeList_classifyF (n : Nat)
    (ih : ∀ src, errorFreeList (parseF n src) = true) (tok : List Char) :
    errorFreeList (classifyF n tok) = true := by
  unfold classifyF
  cases hp : parseNumber (trimChars tok) with
  | some q => simp [hp, errorFreeList, errorFree]
  | none =>
    simp only [hp]
    split_ifs with h1 h2 h3
    · rfl
    · simp [errorFreeList, errorFree, ih]
    · rfl
    · cases keywordInstr (String.mk (trimChars tok)) <;> rfl

/-- The parser never produces an `Error` value, at any fuel, for any
source text. -/
theorem errorFreeList_parseF : ∀ (fuel : Nat) (src : String),
    errorFreeList (parseF fuel src) = true := by
  intro fuel
  induction fuel with
  | zero => intro src; rfl
  | succ n ih =>
    intro src
    rw [parseF_succ]
    generalize tokenizeChars src.toList = toks
    induction toks with
    | nil => rfl
    | cons t ts iht =>
      rw [List.flatMap_cons, errorFreeList_append, iht,
          errorFreeList_classifyF n ih t, Bool.and_true]

/-- C5: popping the empty stack yields the `Error(StackEmpty)` value with
the machine unchanged (no abort); popping a nonempty stack returns the
existing top, never a fresh `Error` — and since the parser never emits an
`Error` either, the empty-stack pop is the only producer of `Error`
values; the `Pop` instruction discards the top value and is a pure no-op
(stack left empty, no error pushed) when the stack is already empty. -/
theorem c5_pop_contract :
    (∀ st : Core, st.stack = [] → st.pop = (Ty.Error Err.StackEmpty, st)) ∧
    (∀ (st : Core) (v : Ty) (s : List Ty), st.stack = v :: s →
      st.pop = (v, { st with stack := s })) ∧
    (∀ (fuel : Nat) (src : String), errorFreeList (parseF fuel src) = true) ∧
    (∀ (n : Nat) (st : Core) (rest : List Ty), st.stack = [] →
      evalT (n + 1) st (Ty.Instruction Instruction.Pop :: rest) = evalT n st rest) ∧
    (∀ (n : Nat) (st : Core) (v : Ty) (s : List Ty) (rest : List Ty), st.stack = v :: s →
      evalT (n + 1) st (Ty.Instruction Instruction.Pop :: rest) =
        evalT n { st with stack := s } rest) := by
  refine ⟨?_, ?_, errorFreeList_parseF, ?_, ?_⟩
  · intro st h
    obtain ⟨s, m, o, i⟩ := st
    cases h
    rfl
  · intro st v tl h
    obtain ⟨s, m, o, i⟩ := st
    cases h
    rfl
  · intro n st rest h
    obtain ⟨s, m, o, i⟩ := st
    cases h
    rfl
  · intro n st v tl rest h
    obtain ⟨s, m, o, i⟩ := st
    cases h
    rfl

/-- C5 witness: the pop contract at concrete states. -/
theorem c5_pop_contract_witness :
    emptyCore.pop = (Ty.Error Err.StackEmpty, emptyCore) ∧
    (Core.mk [Ty.Number 7] (fun _ => none) "" []).pop
      = (Ty.Number 7, { Core.mk [Ty.Number 7] (fun _ => none) "" [] with stack := [] }) ∧
    errorFreeList (parseF 3 "1 add") = true ∧
    evalT 1 emptyCore [Ty.Instruction Instruction.Pop] = evalT 0 emptyCore [] :=
  ⟨c5_pop_contract.1 emptyCore rfl,
   c5_pop_contract.2.1 _ (Ty.Number 7) [] rfl,
   c5_pop_contract.2.2.1 3 "1 add",
   c5_pop_contract.2.2.2.1 0 emptyCore [] rfl⟩

/-- The spec's own wording of the `While` loop, stated as a standalone
function to compare with the source-derived `whileGo`: "repeatedly:
execute condition, pop resulting bool; while true, execute body, then
re-evaluate condition". -/
def specWhileLoop (ev : Core → List Ty → Option Core) :
    Nat → List Ty → List Ty → Core → Option Core
  | 0, _, _, _ => none
  | k + 1, condition, body, st =>
    match ev st condition with
    | none => none
    | some st1 =>
      match st1.pop with
      | (b, st2) =>
        if b.get_bool then
          match ev st2 body with
          | none => none
          | some st3 => specWhileLoop ev k condition body st3
        else some st2

/-- The spec's own wording of the `Until` loop: same pop order as
`While`; the loop continues while the condition evaluates false and
terminates once the condition evaluates true. -/
def specUntilLoop (ev : Core → List Ty → Option Core) :
    Nat → List Ty → List Ty → Core → Option Core
  | 0, _, _, _ => none
  | k + 1, condition, body, st =>
    match ev st condition with
    | none => none
    | some st1 =>
      match st1.pop with
      | (b, st2) =>
        if b.get_bool then some st2
        else
          match ev st2 body with
          | none => none
          | some st3 => specUntilLoop ev k condition body st3

/-- The source's `While` loop coincides with the spec's wording of it. -/
theorem whileGo_eq_spec (ev : Core → List Ty → Option Core) (k : Nat)
    (condition body : List Ty) (st : Core) :
    whileGo ev k st condition body = specWhileLoop ev k condition body st := by
  induction k generalizing st with
  | zero => rfl
  | succ k ih =>
    unfold whileGo specWhileLoop
    cases ev st condition with
    | none => rfl
    | some st1 =>
      cases hb : (st1.pop.1).get_bool with
      | false => simp [hb]
      | true =>
        simp only [hb, if_true]
        cases ev st1.pop.2 body with
        | none => rfl
        | some st3 => exact ih st3

/-- The source's `Until` loop coincides with the spec's wording of it. -/
theorem untilGo_eq_spec (ev : Core → List Ty → Option Core) (k : Nat)
    (condition body : List Ty) (st : Core) :
    untilGo ev k st condition body = specUntilLoop ev k condition body st := by
  induction k generalizing st with
  | zero => rfl
  | succ k ih =>
    unfold untilGo specUntilLoop
    cases ev st condition with
    | none => rfl
    | some st1 =>
      cases hb : (st1.pop.1).get_bool with
      | true => simp [hb]
      | false =>
        simp only [hb]
        cases ev st1.pop.2 body with
        | none => rfl
        | some st3 => exact ih st3

/-- C3: for every machine state, `While` pops the body block first and
the condition block second, then runs the spec's loop — execute the
condition, pop the resulting value coerced to bool, and while it is true
execute the body and re-evaluate the condition (live code each
iteration); `Until` uses the same pop order and continues while the
condition evaluates false, terminating once it evaluates true.  The two
closed runs confirm the condition is re-run every iteration: with an
empty body and the counter-bumping condition
`\x7b$c 1 add "c" let $c 3 less-than\x7d`, the `while` run ends with
`c = 3` (three condition runs) and the `until` run ends with `c = 1`
(stops as soon as the condition is true). -/
theorem c3_while_until_semantics :
    (∀ (n : Nat) (st : Core) (rest : List Ty),
      evalT (n + 1) st (Ty.Instruction Instruction.While :: rest) =
        (match specWhileLoop (evalT n) n ((st.pop.2.pop.1).get_block)
            ((st.pop.1).get_block) (st.pop.2.pop.2) with
         | none => none
         | some st3 => evalT n st3 rest)) ∧
    (∀ (n : Nat) (st : Core) (rest : List Ty),
      evalT (n + 1) st (Ty.Instruction Instruction.Until :: rest) =
        (match specUntilLoop (evalT n) n ((st.pop.2.pop.1).get_block)
            ((st.pop.1).get_block) (st.pop.2.pop.2) with
         | none => none
         | some st3 => evalT n st3 rest)) ∧
    ((evalT 100 emptyCore (parseF 10
        "0 \"c\" let \x7b$c 1 add \"c\" let $c 3 less-than\x7d \x7b\x7d while")).bind
      (fun st => st.memory "c") = some (Ty.Number 3)) ∧
    ((evalT 100 emptyCore (parseF 10
        "0 \"c\" let \x7b$c 1 add \"c\" let $c 3 less-than\x7d \x7b\x7d until")).bind
      (fun st => st.memory "c") = some (Ty.Number 1)) := by
  refine ⟨?_, ?_, rfl, rfl⟩
  · intro n st rest
    rw [← whileGo_eq_spec (evalT n) n ((st.pop.2.pop.1).get_block)
      ((st.pop.1).get_block) (st.pop.2.pop.2)]
    rfl
  · intro n st rest
    rw [← untilGo_eq_spec (evalT n) n ((st.pop.2.pop.1).get_block)
      ((st.pop.1).get_block) (st.pop.2.pop.2)]
    rfl

/-- Body of a balanced brace span, seen from depth `d ≥ 1`: braces nest
and the span returns to depth 0 exactly at its final character (quotes
are plain text inside braces).  `'{' :: body` with `insideOk 1 body` is
precisely a brace-delimited token span whose nested braces are internally
balanced. -/
def insideOk : Nat → List Char → Bool
  | _, [] => false
  | d, c :: cs =>
    if c = '{' then insideOk (d + 1) cs
    else if c = '}' then (if d = 1 then cs.isEmpty else insideOk (d - 1) cs)
    else insideOk d cs

/-- Inside braces (depth ≠ 0, not quoting), any character other than a
brace is simply appended to the current token. -/
theorem tokStep_deep (st : TokSt) (c : Char) (hd : st.depth ≠ 0)
    (h1 : c ≠ '{') (h2 : c ≠ '}') :
    tokStep st c = { st with current := st.current ++ [c] } := by
  unfold tokStep
  rw [if_neg (fun h => h1 h.1), if_neg (fun h => h2 h.1)]
  split_ifs with h3 h4 h5 <;> simp_all

/-- Running the tokenizer over the body of a balanced brace span from
depth `d` appends the whole span to the current token and emits it as one
token, ending in the clean depth-0 state. -/
theorem tokRun_inside :
    ∀ (body : List Char) (d : Nat), d ≠ 0 → insideOk d body = true →
      ∀ (toks : List (List Char)) (cur : List Char),
        List.foldl tokStep ⟨toks, cur, d, false⟩ body
          = ⟨toks ++ [cur ++ body], [], 0, false⟩ := by
  intro body
  induction body with
  | nil => intro d hd hin; simp [insideOk] at hin
  | cons c cs ih =>
    intro d hd hin toks cur
    by_cases hc1 : c = '{'
    · subst hc1
      have hin' : insideOk (d + 1) cs = true := by
        rw [insideOk, if_pos rfl] at hin; exact hin
      have hstep : tokStep ⟨toks, cur, d, false⟩ '{'
          = ⟨toks, cur ++ ['{'], d + 1, false⟩ := by
        unfold tokStep; rw [if_pos ⟨rfl, rfl⟩]
      rw [List.foldl_cons, hstep, ih (d + 1) (Nat.succ_ne_zero d) hin' toks (cur ++ ['{'])]
      simp
    · by_cases hc2 : c = '}'
      · subst hc2
        rw [insideOk, if_neg hc1, if_pos rfl] at hin
        by_cases hd1 : d = 1
        · subst hd1
          rw [if_pos rfl] at hin
          have hcs : cs = [] := List.isEmpty_iff.mp hin
          subst hcs
          have hstep : tokStep ⟨toks, cur, 1, false⟩ '}'
              = ⟨toks ++ [cur ++ ['}']], [], 0, false⟩ := by
            unfold tokStep
            rw [if_neg (fun h => absurd h.1 (by decide)), if_pos ⟨rfl, rfl⟩,
              if_pos one_ne_zero, if_pos rfl]
          rw [List.foldl_cons, hstep]
          rfl
        · rw [if_neg hd1] at hin
          have hd2 : d - 1 ≠ 0 := by omega
          have hstep : tokStep ⟨toks, cur, d, false⟩ '}'
              = ⟨toks, cur ++ ['}'], d - 1, false⟩ := by
            unfold tokStep
            rw [if_neg (fun h => absurd h.1 (by decide)), if_pos ⟨rfl, rfl⟩,
              if_pos hd, if_neg hd1]
          rw [List.foldl_cons, hstep, ih (d - 1) hd2 hin toks (cur ++ ['}'])]
          simp
      · rw [insideOk, if_neg hc1, if_neg hc2] at hin
        rw [List.foldl_cons, tokStep_deep ⟨toks, cur, d, false⟩ c hd hc1 hc2,
          ih d hd hin toks (cur ++ [c])]
        simp

/-- C7: a span starting with `{` whose nested braces are internally
balanced, reached at a clean tokenizer state (depth 0, no open quote, no
accumulated text), is emitted as exactly one token covering the whole
span — internal whitespace does not split it — and tokenizing continues
on the remaining input from the clean state with just that token
appended; and whenever the fold over the whole input ends inside braces
or inside a quote, the trailing token is dropped: the tokenizer returns
exactly the previously emitted tokens, with no error. -/
theorem c7_tokenizer_spans :
    (∀ (st : TokSt) (body rest : List Char),
      st.depth = 0 → st.quote = false → st.current = [] →
      insideOk 1 body = true →
      List.foldl tokStep st (('{' :: body) ++ rest) =
        List.foldl tokStep { st with tokens := st.tokens ++ ['{' :: body] } rest) ∧
    (∀ cs : List Char,
      (cs.foldl tokStep tokInit).depth ≠ 0 ∨ (cs.foldl tokStep tokInit).quote = true →
      tokenizeChars cs = (cs.foldl tokStep tokInit).tokens) := by
  constructor
  · intro st body rest hd hq hcur hin
    obtain ⟨toks, cur, dep, qu⟩ := st
    cases hd; cases hq; cases hcur
    have hstep : tokStep ⟨toks, [], 0, false⟩ '{' = ⟨toks, ['{'], 1, false⟩ := by
      unfold tokStep; rw [if_pos ⟨rfl, rfl⟩]; rfl
    rw [List.cons_append, List.foldl_cons, hstep, List.foldl_append,
      tokRun_inside body 1 one_ne_zero hin toks ['{']]
    rfl
  · intro cs h
    unfold tokenizeChars
    rw [if_neg]
    intro hcon
    exact hcon (h.elim Or.inl (fun hq => Or.inr (Or.inl hq)))

/-- C7 witness: the balanced span `{a}` followed by a space is emitted as
one token, and the lone `{` input ends at depth 1, so its trailing token
is dropped. -/
theorem c7_tokenizer_spans_witness :
    (insideOk 1 ['a', '}'] = true ∧
      List.foldl tokStep tokInit (('{' :: ['a', '}']) ++ [' ']) =
        List.foldl tokStep { tokInit with tokens := tokInit.tokens ++ [['{', 'a', '}']] } [' ']) ∧
    (((['{'] : List Char).foldl tokStep tokInit).depth ≠ 0 ∧
      tokenizeChars ['{'] = ((['{'] : List Char).foldl tokStep tokInit).tokens) :=
  ⟨⟨by decide, c7_tokenizer_spans.1 tokInit ['a', '}'] [' '] rfl rfl rfl (by decide)⟩,
   ⟨by decide, c7_tokenizer_spans.2 ['{'] (Or.inl (by decide))⟩⟩

/-- `find` on a list headed by the sought character answers index 0, so
the paired `remove` drops exactly that head. -/
theorem removeAt_head (c : Char) (l : List Char) :
    removeAt (c :: l) ((firstIdx c (c :: l)).getD 0) = l := by
  simp [firstIdx, removeAt]

/-- `rfind` on a list ending in the sought character answers the last
index. -/
theorem lastIdx_concat (c : Char) (l : List Char) :
    lastIdx c (l ++ [c]) = some l.length := by
  unfold lastIdx
  rw [List.reverse_append]
  simp [firstIdx]

/-- `remove` at the last index drops exactly the final character. -/
theorem removeAt_concat (c : Char) (l : List Char) :
    removeAt (l ++ [c]) l.length = l := by
  unfold removeAt
  rw [List.take_left, List.drop_eq_nil_of_le (by simp)]
  simp

/-- The parser's `remove(find)`-then-`remove(rfind)` sequence on a token
that starts with `c1` and ends with `c2` strips exactly the first and
last characters. -/
theorem strip_first_last (c1 c2 : Char) (t : List Char) (hh : t.head? = some c1)
    (hl : t.getLast? = some c2) (hlen : 2 ≤ t.length) :
    removeAt (removeAt t ((firstIdx c1 t).getD 0))
      ((lastIdx c2 (removeAt t ((firstIdx c1 t).getD 0))).getD 0)
      = (t.drop 1).dropLast := by
  obtain ⟨c0, t', rfl⟩ : ∃ c0 t', t = c0 :: t' := by
    cases t with
    | nil => cases hh
    | cons a b => exact ⟨a, b, rfl⟩
  obtain rfl : c0 = c1 := by
    rw [List.head?_cons] at hh
    exact Option.some.inj hh
  rw [removeAt_head]
  have hl' : t'.getLast? = some c2 := by
    cases t' with
    | nil => simp at hlen
    | cons a b => rw [List.getLast?_cons_cons] at hl; exact hl
  obtain ⟨l2, rfl⟩ : ∃ l2, t' = l2 ++ [c2] :=
    ⟨t'.dropLast, (List.dropLast_append_getLast? c2 hl').symm⟩
  rw [lastIdx_concat, Option.getD_some, removeAt_concat]
  simp

/-- C6: the parser classifies each (trimmed) token in priority order —
float literal first, then quoted string with exactly the first and last
quote stripped, then brace-delimited block parsed recursively with
exactly the first brace and last brace stripped, then `$`-sigil variable
reference with the sigil stripped, then exact keyword match — and a token
matching none of these forms contributes zero entries, so the surrounding
tokens parse exactly as if it were absent (shown both in general over the
token list and on the concrete source `3 foo@ 4`); classification is a
total function, so parsing never errors. -/
theorem c6_token_classification :
    (∀ (n : Nat) (tok : List Char) (q : QF),
      parseNumber (trimChars tok) = some q → classifyF n tok = [Ty.Number q]) ∧
    (∀ (n : Nat) (tok : List Char),
      parseNumber (trimChars tok) = none →
      (trimChars tok).head? = some '"' → (trimChars tok).getLast? = some '"' →
      2 ≤ (trimChars tok).length →
      classifyF n tok = [Ty.String (String.mk (((trimChars tok).drop 1).dropLast))]) ∧
    (∀ (n : Nat) (tok : List Char),
      parseNumber (trimChars tok) = none →
      ¬((trimChars tok).head? = some '"' ∧ (trimChars tok).getLast? = some '"') →
      (trimChars tok).head? = some '{' → (trimChars tok).getLast? = some '}' →
      2 ≤ (trimChars tok).length →
      classifyF n tok
        = [Ty.Block (parseF n (String.mk (((trimChars tok).drop 1).dropLast)))]) ∧
    (∀ (n : Nat) (tok : List Char),
      parseNumber (trimChars tok) = none →
      ¬((trimChars tok).head? = some '"' ∧ (trimChars tok).getLast? = some '"') →
      ¬((trimChars tok).head? = some '{' ∧ (trimChars tok).getLast? = some '}') →
      (trimChars tok).head? = some '$' →
      classifyF n tok = [Ty.Variable (String.mk ((trimChars tok).drop 1))]) ∧
    (∀ (n : Nat) (tok : List Char) (i : Instruction),
      parseNumber (trimChars tok) = none →
      ¬((trimChars tok).head? = some '"' ∧ (trimChars tok).getLast? = some '"') →
      ¬((trimChars tok).head? = some '{' ∧ (trimChars tok).getLast? = some '}') →
      ¬((trimChars tok).head? = some '$') →
      keywordInstr (String.mk (trimChars tok)) = some i →
      classifyF n tok = [Ty.Instruction i]) ∧
    (∀ (n : Nat) (tok : List Char),
      parseNumber (trimChars tok) = none →
      ¬((trimChars tok).head? = some '"' ∧ (trimChars tok).getLast? = some '"') →
      ¬((trimChars tok).head? = some '{' ∧ (trimChars tok).getLast? = some '}') →
      ¬((trimChars tok).head? = some '$') →
      keywordInstr (String.mk (trimChars tok)) = none →
      classifyF n tok = []) ∧
    (∀ (n : Nat) (ts1 ts2 : List (List Char)) (t : List Char),
      classifyF n t = [] →
      (ts1 ++ t :: ts2).flatMap (classifyF n) = (ts1 ++ ts2).flatMap (classifyF n)) ∧
    (parseF 5 "3 foo@ 4" = parseF 5 "3 4") := by
  refine ⟨?_, ?_, ?_, ?_, ?_, ?_, ?_, rfl⟩
  · intro n tok q h
    unfold classifyF
    simp only [h]
  · intro n tok hnum hh hl hlen
    unfold classifyF
    simp only [hnum]
    rw [if_pos (And.intro hh hl), strip_first_last '"' '"' (trimChars tok) hh hl hlen]
  · intro n tok hnum hq hh hl hlen
    unfold classifyF
    simp only [hnum, if_neg hq]
    rw [if_pos (And.intro hh hl), strip_first_last '{' '}' (trimChars tok) hh hl hlen]
  · intro n tok hnum hq hb hh
    unfold classifyF
    simp only [hnum, if_neg hq, if_neg hb, if_pos hh]
    obtain ⟨c0, t', heq⟩ : ∃ c0 t', trimChars tok = c0 :: t' := by
      cases htc : trimChars tok with
      | nil => rw [htc] at hh; cases hh
      | cons a b => exact ⟨a, b, rfl⟩
    rw [heq] at hh ⊢
    obtain rfl : c0 = '$' := by
      rw [List.head?_cons] at hh
      exact Option.some.inj hh
    rw [removeAt_head]
    simp
  · intro n tok i hnum hq hb hd hk
    unfold classifyF
    simp only [hnum, if_neg hq, if_neg hb, if_neg hd, hk]
  · intro n tok hnum hq hb hd hk
    unfold classifyF
    simp only [hnum, if_neg hq, if_neg hb, if_neg hd, hk]
  · intro n ts1 ts2 t h
    simp [List.flatMap_append, List.flatMap_cons, h]

/-- C6 witness: the classification clauses at concrete tokens — `7` is a
number literal, `foo@` matches no form and contributes nothing. -/
theorem c6_token_classification_witness :
    classifyF 0 ['7'] = [Ty.Number 7] ∧ classifyF 0 ['f', 'o', 'o', '@'] = [] :=
  ⟨c6_token_classification.1 0 ['7'] 7 rfl,
   c6_token_classification.2.2.2.2.2.1 0 ['f', 'o', 'o', '@'] rfl (by decide) (by decide)
     (by decide) rfl⟩

/-- `Core::pop` preserves the no-instruction invariant and never returns
an `Instruction` value from an invariant-satisfying state. -/
theorem pop_ok (st : Core) (h : st.ok) : notInstr st.pop.1 ∧ st.pop.2.ok := by
  obtain ⟨s, m, o, i⟩ := st
  cases s with
  | nil => exact And.intro (fun _ hh => Ty.noConfusion hh) h
  | cons v tl =>
    exact ⟨h.1 v (List.mem_cons_self v tl),
      ⟨fun w hw => h.1 w (List.mem_cons_of_mem v hw), h.2⟩⟩

/-- Pushing a non-`Instruction` value preserves the invariant. -/
theorem push_ok (st : Core) (v : Ty) (h : st.ok) (hv : notInstr v) :
    (st.push v).ok := by
  refine ⟨fun w hw => ?_, h.2⟩
  rcases List.mem_cons.mp hw with rfl | hw'
  · exact hv
  · exact h.1 w hw'

/-- Inserting a non-`Instruction` value preserves the memory half of the
invariant. -/
theorem ok_minsert (m : String → Option Ty) (hm : ∀ k v, m k = some v → notInstr v)
    (key : String) (val : Ty) (hv : notInstr val) :
    ∀ k v, minsert m key val k = some v → notInstr v := by
  intro k v h
  unfold minsert at h
  split_ifs at h
  · exact (Option.some.inj h) ▸ hv
  · exact hm k v h

/-- The `While` loop preserves the invariant whenever the underlying
evaluator does. -/
theorem whileGo_ok (ev : Core → List Ty → Option Core)
    (hev : ∀ (st : Core) (prog : List Ty) (st' : Core),
      st.ok → ev st prog = some st' → st'.ok) :
    ∀ (k : Nat) (st : Core) (condition body : List Ty) (st' : Core),
      st.ok → whileGo ev k st condition body = some st' → st'.ok := by
  intro k
  induction k with
  | zero => intro st c b st' _ hrun; cases hrun
  | succ k ih =>
    intro st c b st' h hrun
    unfold whileGo at hrun
    cases h1 : ev st c with
    | none => rw [h1] at hrun; cases hrun
    | some st1 =>
      rw [h1] at hrun
      have h1ok := hev st c st1 h h1
      have hrun' : (if (st1.pop.1).get_bool then
          (match ev st1.pop.2 b with
           | none => none
           | some st3 => whileGo ev k st3 c b)
        else some st1.pop.2) = some st' := hrun
      by_cases hb : (st1.pop.1).get_bool
      · rw [if_pos hb] at hrun'
        cases h2 : ev st1.pop.2 b with
        | none => rw [h2] at hrun'; cases hrun'
        | some st3 =>
          rw [h2] at hrun'
          exact ih st3 c b st' (hev st1.pop.2 b st3 (pop_ok st1 h1ok).2 h2) hrun'
      · rw [if_neg hb] at hrun'
        exact (Option.some.inj hrun') ▸ (pop_ok st1 h1ok).2

/-- The `Until` loop preserves the invariant whenever the underlying
evaluator does. -/
theorem untilGo_ok (ev : Core → List Ty → Option Core)
    (hev : ∀ (st : Core) (prog : List Ty) (st' : Core),
      st.ok → ev st prog = some st' → st'.ok) :
    ∀ (k : Nat) (st : Core) (condition body : List Ty) (st' : Core),
      st.ok → untilGo ev k st condition body = some st' → st'.ok := by
  intro k
  induction k with
  | zero => intro st c b st' _ hrun; cases hrun
  | succ k ih =>
    intro st c b st' h hrun
    unfold untilGo at hrun
    cases h1 : ev st c with
    | none => rw [h1] at hrun; cases hrun
    | some st1 =>
      rw [h1] at hrun
      have h1ok := hev st c st1 h h1
      have hrun' : (if !(st1.pop.1).get_bool then
          (match ev st1.pop.2 b with
           | none => none
           | some st3 => untilGo ev k st3 c b)
        else some st1.pop.2) = some st' := hrun
      by_cases hb : !(st1.pop.1).get_bool
      · rw [if_pos hb] at hrun'
        cases h2 : ev st1.pop.2 b with
        | none => rw [h2] at hrun'; cases hrun'
        | some st3 =>
          rw [h2] at hrun'
          exact ih st3 c b st' (hev st1.pop.2 b st3 (pop_ok st1 h1ok).2 h2) hrun'
      · rw [if_neg hb] at hrun'
        exact (Option.some.inj hrun') ▸ (pop_ok st1 h1ok).2

/-- C10: the no-instruction invariant is preserved by every evaluation:
whenever evaluation of any program from a state with no `Instruction`
value on the stack or in memory terminates, the final state again has no
`Instruction` value on the stack or in memory — the evaluator dispatches
`Instruction` values instead of storing them, pushes only
`Number`/`String`/`Bool`/`Variable`/`Block`/`Error` values, and memory
entries come only from stack pops. -/
theorem c10_no_instruction_values :
    ∀ (fuel : Nat) (prog : List Ty) (st st' : Core),
      Core.ok st → evalT fuel st prog = some st' → Core.ok st' := by
  intro fuel
  induction fuel with
  | zero => intro prog st st' _ hrun; cases hrun
  | succ n ih =>
    intro prog st st' h hrun
    cases prog with
    | nil => cases hrun; exact h
    | cons order rest =>
      cases order with
      | Number q =>
        exact ih rest _ st' (push_ok st _ h (fun _ hh => Ty.noConfusion hh)) hrun
      | String s =>
        exact ih rest _ st' (push_ok st _ h (fun _ hh => Ty.noConfusion hh)) hrun
      | Bool b =>
        exact ih rest _ st' (push_ok st _ h (fun _ hh => Ty.noConfusion hh)) hrun
      | Block b =>
        exact ih rest _ st' (push_ok st _ h (fun _ hh => Ty.noConfusion hh)) hrun
      | Error e =>
        exact ih rest _ st' (push_ok st _ h (fun _ hh => Ty.noConfusion hh)) hrun
      | Variable name =>
        have hrun' : (match st.memory name with
          | some v => evalT n (st.push v) rest
          | none => evalT n (st.push (Ty.Variable name)) rest) = some st' := hrun
        cases hm : st.memory name with
        | some v =>
          rw [hm] at hrun'
          exact ih rest _ st' (push_ok st v h (h.2 name v hm)) hrun'
        | none =>
          rw [hm] at hrun'
          exact ih rest _ st' (push_ok st _ h (fun _ hh => Ty.noConfusion hh)) hrun'
      | Instruction inst =>
        have h1 := pop_ok st h
        cases inst with
        | Add =>
          exact ih rest _ st'
            (push_ok _ _ (pop_ok st.pop.2 h1.2).2 (fun _ hh => Ty.noConfusion hh)) hrun
        | Sub =>
          exact ih rest _ st'
            (push_ok _ _ (pop_ok st.pop.2 h1.2).2 (fun _ hh => Ty.noConfusion hh)) hrun
        | Mul =>
          exact ih rest _ st'
            (push_ok _ _ (pop_ok st.pop.2 h1.2).2 (fun _ hh => Ty.noConfusion hh)) hrun
        | Div =>
          exact ih rest _ st'
            (push_ok _ _ (pop_ok st.pop.2 h1.2).2 (fun _ hh => Ty.noConfusion hh)) hrun
        | Mod =>
          exact ih rest _ st'
            (push_ok _ _ (pop_ok st.pop.2 h1.2).2 (fun _ hh => Ty.noConfusion hh)) hrun
        | Pow =>
          exact ih rest _ st'
            (push_ok _ _ (pop_ok st.pop.2 h1.2).2 (fun _ hh => Ty.noConfusion hh)) hrun
        | Concat =>
          exact ih rest _ st'
            (push_ok _ _ (pop_ok st.pop.2 h1.2).2 (fun _ hh => Ty.noConfusion hh)) hrun
        | Equal =>
          exact ih rest _ st'
            (push_ok _ _ (pop_ok st.pop.2 h1.2).2 (fun _ hh => Ty.noConfusion hh)) hrun
        | LessThan =>
          exact ih rest _ st'
            (push_ok _ _ (pop_ok st.pop.2 h1.2).2 (fun _ hh => Ty.noConfusion hh)) hrun
        | GreaterThan =>
          exact ih rest _ st'
            (push_ok _ _ (pop_ok st.pop.2 h1.2).2 (fun _ hh => Ty.noConfusion hh)) hrun
        | Print =>
          exact ih rest
            { st.pop.2 with output := st.pop.2.output ++ (st.pop.1).get_string }
            st' h1.2 hrun
        | Input =>
          refine ih rest
            { st with stack := Ty.String (st.inputs.headD "") :: st.stack,
                      inputs := st.inputs.tail } st' ⟨?_, h.2⟩ hrun
          intro w hw
          rcases List.mem_cons.mp hw with rfl | hw'
          · exact fun _ hh => Ty.noConfusion hh
          · exact h.1 w hw'
        | Eval =>
          have hrun' : (match evalT n st.pop.2 ((st.pop.1).get_block) with
            | none => none
            | some st2 => evalT n st2 rest) = some st' := hrun
          cases hb : evalT n st.pop.2 ((st.pop.1).get_block) with
          | none => rw [hb] at hrun'; cases hrun'
          | some st2 =>
            rw [hb] at hrun'
            exact ih rest st2 st' (ih _ _ _ h1.2 hb) hrun'
        | When =>
          have h2 := pop_ok st.pop.2 h1.2
          have hrun' : (match (if (st.pop.2.pop.1).get_bool then
                evalT n st.pop.2.pop.2 ((st.pop.1).get_block)
              else some st.pop.2.pop.2) with
            | none => none
            | some st3 => evalT n st3 rest) = some st' := hrun
          by_cases hb : (st.pop.2.pop.1).get_bool
          · rw [if_pos hb] at hrun'
            cases hev : evalT n st.pop.2.pop.2 ((st.pop.1).get_block) with
            | none => rw [hev] at hrun'; cases hrun'
            | some st3 =>
              rw [hev] at hrun'
              exact ih rest st3 st' (ih _ _ _ h2.2 hev) hrun'
          · rw [if_neg hb] at hrun'
            exact ih rest _ st' h2.2 hrun'
        | IfElse =>
          have h2 := pop_ok st.pop.2 h1.2
          have h3 := pop_ok st.pop.2.pop.2 h2.2
          have hrun' : (match evalT n st.pop.2.pop.2.pop.2
                (if (st.pop.2.pop.2.pop.1).get_bool then (st.pop.2.pop.1).get_block
                 else (st.pop.1).get_block) with
            | none => none
            | some st4 => evalT n st4 rest) = some st' := hrun
          cases hev : evalT n st.pop.2.pop.2.pop.2
              (if (st.pop.2.pop.2.pop.1).get_bool then (st.pop.2.pop.1).get_block
               else (st.pop.1).get_block) with
          | none => rw [hev] at hrun'; cases hrun'
          | some st4 =>
            rw [hev] at hrun'
            exact ih rest st4 st' (ih _ _ _ h3.2 hev) hrun'
        | While =>
          have h2 := pop_ok st.pop.2 h1.2
          have hrun' : (match whileGo (evalT n) n st.pop.2.pop.2
                ((st.pop.2.pop.1).get_block) ((st.pop.1).get_block) with
            | none => none
            | some st3 => evalT n st3 rest) = some st' := hrun
          cases hw : whileGo (evalT n) n st.pop.2.pop.2
              ((st.pop.2.pop.1).get_block) ((st.pop.1).get_block) with
          | none => rw [hw] at hrun'; cases hrun'
          | some st3 =>
            rw [hw] at hrun'
            exact ih rest st3 st'
              (whileGo_ok (evalT n) (fun a b c hok he => ih b a c hok he) n
                st.pop.2.pop.2 _ _ st3 h2.2 hw) hrun'
        | Until =>
          have h2 := pop_ok st.pop.2 h1.2
          have hrun' : (match untilGo (evalT n) n st.pop.2.pop.2
                ((st.pop.2.pop.1).get_block) ((st.pop.1).get_block) with
            | none => none
            | some st3 => evalT n st3 rest) = some st' := hrun
          cases hw : untilGo (evalT n) n st.pop.2.pop.2
              ((st.pop.2.pop.1).get_block) ((st.pop.1).get_block) with
          | none => rw [hw] at hrun'; cases hrun'
          | some st3 =>
            rw [hw] at hrun'
            exact ih rest st3 st'
              (untilGo_ok (evalT n) (fun a b c hok he => ih b a c hok he) n
                st.pop.2.pop.2 _ _ st3 h2.2 hw) hrun'
        | Let =>
          have h2 := pop_ok st.pop.2 h1.2
          refine ih rest
            { st.pop.2.pop.2 with
              memory := minsert (st.pop.2.pop.2).memory ((st.pop.1).get_string)
                st.pop.2.pop.1 } st' ⟨h2.2.1, ?_⟩ hrun
          exact ok_minsert _ h2.2.2 _ _ h2.1
        | Pop =>
          refine ih rest { st with stack := st.stack.tail } st' ⟨?_, h.2⟩ hrun
          intro w hw
          exact h.1 w (List.mem_of_mem_tail hw)

/-- C10 witness: the invariant at the empty start state, transported
through a concrete run that pushes a number. -/
theorem c10_no_instruction_values_witness :
    Core.ok emptyCore ∧ Core.ok (emptyCore.push (Ty.Number 1)) :=
  ⟨⟨fun v hv => absurd hv (List.not_mem_nil v), fun _ _ hv => Option.noConfusion hv⟩,
   c10_no_instruction_values 5 [Ty.Number 1] emptyCore (emptyCore.push (Ty.Number 1))
     ⟨fun v hv => absurd hv (List.not_mem_nil v), fun _ _ hv => Option.noConfusion hv⟩ rfl⟩
